import Mathlib

/-!
Verification development for the pyzlides layout and pagination engine
(`src/pyzlides/core.py`).  The element model, text wrapping, height
computation, the pagination height estimator and the overflow-splitting
pass are embedded as executable Lean functions over `ℚ`; the canvas's
`stringWidth` capability is modelled as a per-character width table
(ReportLab's string width is additive over characters), and the image
file system is modelled as a map from paths to load outcomes.
-/

/-- Width-measurement capability of the canvas: per-character advance width
for a given font name and font size (`canvas_obj.stringWidth` is additive
over the characters of the measured string). -/
structure Measure where
  cw : String → ℚ → Char → ℚ

/-- Model of `canvas_obj.stringWidth(text, font, size)`: the sum of the per-character
widths of `l` under the width table `cw` (font and size already applied). -/
def sw (cw : Char → ℚ) (l : List Char) : ℚ := (l.map cw).sum

/-- The theme dictionary fields that height computations consume
(`theme.get('font', ...)`, `theme.get('font_size', ...)`,
`theme.get('header_font_size', ...)`). -/
structure Theme where
  font : String
  font_size : ℚ
  header_font_size : ℚ
deriving DecidableEq

/-- The default theme of `Config.get_default_config`. -/
def defTheme : Theme := { font := "Helvetica", font_size := 24, header_font_size := 48 }

/-- Outcome of resolving an image path: `os.path.exists` is false, or loading
raises, or the image loads with the given pixel dimensions. -/
inductive ImgOutcome where
  | missing
  | loadError (msg : String)
  | ok (w h : ℚ)

/-- Python `str.split(sep)` for a one-character separator: empty string gives
one empty field, consecutive separators give empty fields. -/
def splitOnChar (sep : Char) : List Char → List (List Char)
  | [] => [[]]
  | c :: cs =>
    if c = sep then [] :: splitOnChar sep cs
    else
      match splitOnChar sep cs with
      | [] => [[c]]
      | l :: ls => (c :: l) :: ls

/-- The word loop of `wrap_text`: state is the current line and the emitted
lines; each word is tested by measuring `current + (" " if current else "") +
word` against `max_width`. -/
def wrapLoop (cw : Char → ℚ) (maxW : ℚ) :
    List Char → List (List Char) → List (List Char) → List (List Char)
  | cur, lines, [] => if cur = [] then lines else lines ++ [cur]
  | cur, lines, w :: rest =>
    let test := cur ++ (if cur = [] then [] else [' ']) ++ w
    if sw cw test ≤ maxW then wrapLoop cw maxW test lines rest
    else if cur = [] then wrapLoop cw maxW [] (lines ++ [w]) rest
    else wrapLoop cw maxW w (lines ++ [cur]) rest

/-- Source `wrap_text(canvas, text, font, size, max_width)`: greedy word wrap over
`text.split(' ')` (font and size are folded into the width table `cw`). -/
def wrap_text (cw : Char → ℚ) (maxW : ℚ) (text : List Char) : List (List Char) :=
  wrapLoop cw maxW [] [] (splitOnChar ' ' text)

/-- A line is blank when `line.strip()` is empty: all characters whitespace. -/
def blankLine (l : List Char) : Bool := l.all Char.isWhitespace

/-- Drop the longest suffix all of whose elements satisfy `p`. -/
def dropRightWhile (p : α → Bool) (l : List α) : List α :=
  (l.reverse.dropWhile p).reverse

/-- The leading/trailing blank-line removal in `Code.render`
(`while code_lines and not code_lines[0].strip(): pop(0)` and the mirrored
loop on the last line). -/
def trimCodeLines (ls : List (List Char)) : List (List Char) :=
  dropRightWhile blankLine (ls.dropWhile blankLine)

/-- Python `str.strip()`: remove leading and trailing whitespace characters. -/
def pyStrip (l : List Char) : List Char :=
  dropRightWhile Char.isWhitespace (l.dropWhile Char.isWhitespace)

/-- Value of `len(code_lines)` in `Code.render`: lines of `code.split('\n')` after
removing leading and trailing blank lines. -/
def codeRenderLineCount (s : String) : Nat :=
  (trimCodeLines (splitOnChar '\n' s.data)).length

/-- Value of `len(element.code.strip().split('\n'))` in `Slide._estimate_element_height`. -/
def codeEstLineCount (s : String) : Nat :=
  (splitOnChar '\n' (pyStrip s.data)).length

/-- Join a list of words with single spaces: the inverse of `split(' ')`,
used to describe the text reassembled by the wrap loop. -/
def joinSpace : List (List Char) → List Char
  | [] => []
  | [w] => w
  | w :: ws => w ++ ' ' :: joinSpace ws

/-- Apply `f` to the last element of a list (identity on `[]`). -/
def modifyLast (f : α → α) : List α → List α
  | [] => []
  | [a] => [f a]
  | a :: l => a :: modifyLast f l

/-- The element tree of `core.py`: text leaves, code, images, positional
wrappers, the grid, and the `CombinedElement` produced by `+`. -/
inductive Element where
  | head1 (text : String) (color : Option String)
  | head2 (text : String) (color : Option String)
  | head3 (text : String) (color : Option String)
  | bodyText (text : String) (color : Option String)
  | bold (text : String) (color : Option String)
  | code (code : String) (language : Option String) (backgroundColor : String)
  | img (path : String) (caption : String)
  | backgroundImage (path : String)
  | center (child : Element)
  | bottom (child : Element)
  | titleSlide (child : Element)
  | grid (children : List Element) (columns : Nat)
  | combined (children : List Element)

/-- The column loop of `GridLayout.render`: running index `i`, running
`max_height`, and the per-child heights; the loop breaks at `i >= columns`. -/
def gridRunAux (n : Nat) : Nat → ℚ → List ℚ → ℚ
  | _, acc, [] => acc
  | i, acc, h :: rest => if n ≤ i then acc else gridRunAux n (i + 1) (max acc h) rest

mutual

/-- The height returned by `BaseElement.render` for each element variant
(`render` returns the vertical space consumed; no variant's return value
depends on the draw position).  `m` is the width-measurement capability,
`E` the image file system, `theme` the theme dictionary. -/
def renderHeight (m : Measure) (E : String → ImgOutcome) (theme : Theme) : Element → ℚ
  | .head1 t _ =>
    (((wrap_text (m.cw (theme.font ++ "-Bold") theme.header_font_size) 692 t.data).length : ℚ))
      * (theme.header_font_size + 5) + 5
  | .head2 t _ =>
    (((wrap_text (m.cw (theme.font ++ "-Bold") (theme.header_font_size * (3/4))) 692 t.data).length : ℚ))
      * (theme.header_font_size * (3/4) + 4) + 4
  | .head3 t _ =>
    (((wrap_text (m.cw (theme.font ++ "-Bold") (theme.header_font_size * (3/5))) 692 t.data).length : ℚ))
      * (theme.header_font_size * (3/5) + 3) + 3
  | .bodyText t _ =>
    (((wrap_text (m.cw theme.font theme.font_size) 692 t.data).length : ℚ))
      * (theme.font_size + 2) + 3
  | .bold t _ =>
    (((wrap_text (m.cw (theme.font ++ "-Bold") theme.font_size) 692 t.data).length : ℚ))
      * (theme.font_size + 2) + 3
  | .code c _ _ =>
    ((codeRenderLineCount c : ℚ)) * (theme.font_size * (4/5) + 2) + 2 * 10 + 10
  | .img path caption =>
    match E path with
    | .missing => if caption = "" then 30 else 60
    | .loadError _ => 30
    | .ok w h =>
      let scale := min (400 / w) (min (300 / h) 1)
      h * scale + (if caption = "" then 0 else 30)
  | .backgroundImage _ => 0
  | .center e => renderHeight m E theme e
  | .bottom e => renderHeight m E theme e
  | .titleSlide e => renderHeight m E theme e
  | .grid els n => gridRunAux n 0 0 (renderHeights m E theme els)
  | .combined els => (renderHeights m E theme els).sum

/-- The heights of a list of child elements, in order. -/
def renderHeights (m : Measure) (E : String → ImgOutcome) (theme : Theme) :
    List Element → List ℚ
  | [] => []
  | e :: l => renderHeight m E theme e :: renderHeights m E theme l

end

/-- Expression `max(1, charCount * fontSize // maxWidth + 1)` with `maxWidth = 692`:
the estimated line count of `Slide._estimate_element_height` for text. -/
def estLines (n : Nat) (fs : ℚ) : ℤ := max 1 (⌊(n : ℚ) * fs / 692⌋ + 1)

/-- Expression `estimated_lines * (font_size + gap) + trail` for a text category. -/
def estTextHeight (n : Nat) (fs gap trail : ℚ) : ℚ :=
  ((estLines n fs : ℤ) : ℚ) * (fs + gap) + trail

mutual

/-- Source `Slide._estimate_element_height`: the cheap pagination-time height
approximation, dispatching on the element variant. -/
def estimate (theme : Theme) : Element → ℚ
  | .head1 t _ => estTextHeight t.length theme.header_font_size 5 5
  | .head2 t _ => estTextHeight t.length (theme.header_font_size * (3/4)) 4 4
  | .head3 t _ => estTextHeight t.length (theme.header_font_size * (3/5)) 3 3
  | .bodyText t _ => estTextHeight t.length theme.font_size 2 3
  | .bold t _ => estTextHeight t.length theme.font_size 2 3
  | .code c _ _ =>
    ((codeEstLineCount c : ℚ)) * (theme.font_size * (4/5) + 2) + 2 * 10 + 10
  | .img _ _ => 350
  | .backgroundImage _ => 0
  | .center e => estimate theme e
  | .bottom e => estimate theme e
  | .titleSlide e => estimate theme e
  | .grid els n => ((estimates theme els).take n).foldl max 0
  | .combined els => (estimates theme els).sum

/-- The estimated heights of a list of child elements, in order. -/
def estimates (theme : Theme) : List Element → List ℚ
  | [] => []
  | e :: l => estimate theme e :: estimates theme l

end

/-- The sequence of child render calls issued by `CombinedElement.render`:
each child is drawn at the current `y`, which then decreases by the child's
rendered height. -/
def combinedPlacements (m : Measure) (E : String → ImgOutcome) (theme : Theme)
    (y : ℚ) : List Element → List (Element × ℚ)
  | [] => []
  | e :: l => (e, y) :: combinedPlacements m E theme (y - renderHeight m E theme e) l

/-- Source `Center._estimate_text_width`: `stringWidth` of the child's full text for
text-bearing children, `None` otherwise. -/
def centerTextWidth (m : Measure) (theme : Theme) : Element → Option ℚ
  | .head1 t _ => some (sw (m.cw (theme.font ++ "-Bold") theme.header_font_size) t.data)
  | .head2 t _ => some (sw (m.cw (theme.font ++ "-Bold") (theme.header_font_size * (3/4))) t.data)
  | .head3 t _ => some (sw (m.cw (theme.font ++ "-Bold") (theme.header_font_size * (3/5))) t.data)
  | .bodyText t _ => some (sw (m.cw theme.font theme.font_size) t.data)
  | .bold t _ => some (sw (m.cw (theme.font ++ "-Bold") theme.font_size) t.data)
  | _ => none

/-- The horizontal draw position chosen by `Center.render`: the midpoint of
the content area, shifted left by half the measured text width and clamped
first to the left margin and then against the right margin. -/
def centerRenderX (m : Measure) (theme : Theme) (e : Element) : ℚ :=
  match centerTextWidth m theme e with
  | some w => min (max 50 ((50 + 692 / 2) - w / 2)) (792 - 50 - w)
  | none => 50 + 692 / 2

/-- The element loop of `Slide.render_with_overflow_detection`: state is the
completed slides, the pending buffer, and the cursor `current_y`. -/
def pagLoop (est : Element → ℚ) :
    List (List Element) → List Element → ℚ → List Element → List (List Element)
  | slides, cur, _, [] => if cur.isEmpty then slides else slides ++ [cur]
  | slides, cur, y, e :: rest =>
    if y - est e - 10 < 50 ∧ cur.isEmpty = false then
      pagLoop est (slides ++ [cur]) [e] (891 / 2 - 50 - est e - 10) rest
    else
      pagLoop est slides (cur ++ [e]) (y - (est e + 10)) rest

/-- Source `Slide.render_with_overflow_detection`: split the element sequence into
physical slides using estimated heights; if no slide was produced (empty
input) the original slide is returned as-is. -/
def render_with_overflow_detection (theme : Theme) (els : List Element) :
    List (List Element) :=
  let s := pagLoop (estimate theme) [] [] (891 / 2 - 50) els
  if s.isEmpty then [els] else s

/-- A width table charging one unit per character, used for concrete runs. -/
def unitCW : Char → ℚ := fun _ => 1

/-- A measurement capability charging one unit per character in every font. -/
def unitMeasure : Measure := ⟨fun _ _ _ => 1⟩

/-- An image file system in which every path is absent. -/
def missingEnv : String → ImgOutcome := fun _ => ImgOutcome.missing

/-- An image file system in which every load raises. -/
def errorEnv : String → ImgOutcome := fun _ => ImgOutcome.loadError "broken"

/-- A string of `n` copies of the letter a, used for concrete runs. -/
def repA (n : Nat) : String := String.mk (List.replicate n 'a')

/-- Modelled from the spec: the text-element height the specification ascribes
to the pagination estimator, with line count `ceil(charCount * fontSize /
maxWidth)` (`maxWidth = 692`) and the renderer's per-category line-height
formula.  Stated only to compare against `estimate`, which is translated from
`Slide._estimate_element_height`. -/
def specCeilTextHeight (n : Nat) (fs gap trail : ℚ) : ℚ :=
  ((⌈(n : ℚ) * fs / 692⌉ : ℤ) : ℚ) * (fs + gap) + trail

theorem splitOnChar_ne_nil (sep : Char) (l : List Char) : splitOnChar sep l ≠ [] := by
  cases l with
  | nil => simp [splitOnChar]
  | cons c cs =>
    simp only [splitOnChar]
    split
    · simp
    · split <;> simp

theorem splitOnChar_cons_of_ne (sep c : Char) (cs : List Char) (h : c ≠ sep) :
    ∃ w ws, splitOnChar sep cs = w :: ws ∧ splitOnChar sep (c :: cs) = (c :: w) :: ws := by
  cases hq : splitOnChar sep cs with
  | nil => exact absurd hq (splitOnChar_ne_nil _ _)
  | cons w ws =>
    refine ⟨w, ws, rfl, ?_⟩
    simp only [splitOnChar, if_neg h, hq]

theorem joinSpace_cons_cons (w x : List Char) (xs : List (List Char)) :
    joinSpace (w :: x :: xs) = w ++ ' ' :: joinSpace (x :: xs) := rfl

theorem splitOnChar_joinSpace (l : List Char) : joinSpace (splitOnChar ' ' l) = l := by
  induction l with
  | nil => rfl
  | cons c cs ih =>
    by_cases h : c = ' '
    · subst h
      obtain ⟨w, ws, hw⟩ : ∃ w ws, splitOnChar ' ' cs = w :: ws := by
        cases hq : splitOnChar ' ' cs with
        | nil => exact absurd hq (splitOnChar_ne_nil _ _)
        | cons w ws => exact ⟨w, ws, rfl⟩
      rw [hw] at ih
      simp [splitOnChar, hw, joinSpace_cons_cons, ih]
    · obtain ⟨w, ws, hw, hcons⟩ := splitOnChar_cons_of_ne ' ' c cs h
      rw [hw] at ih
      rw [hcons]
      cases ws with
      | nil =>
        simp only [joinSpace] at ih ⊢
        rw [ih]
      | cons w2 ws2 =>
        rw [joinSpace_cons_cons] at ih ⊢
        rw [List.cons_append, ih]

theorem sw_append (cw : Char → ℚ) (a b : List Char) :
    sw cw (a ++ b) = sw cw a + sw cw b := by
  simp [sw]

theorem sw_nonneg (cw : Char → ℚ) (h : ∀ c, 0 ≤ cw c) (l : List Char) : 0 ≤ sw cw l := by
  refine List.sum_nonneg ?_
  intro x hx
  obtain ⟨c, _, rfl⟩ := List.mem_map.mp hx
  exact h c

theorem sw_le_of_append (cw : Char → ℚ) (h : ∀ c, 0 ≤ cw c) (a b : List Char) :
    sw cw a ≤ sw cw (a ++ b) := by
  rw [sw_append]
  have := sw_nonneg cw h b
  linarith

theorem joinSpace_head_app (w : List Char) (ws : List (List Char)) :
    ∃ r, joinSpace (w :: ws) = w ++ r := by
  cases ws with
  | nil => exact ⟨[], by simp [joinSpace]⟩
  | cons x xs => exact ⟨' ' :: joinSpace (x :: xs), rfl⟩

theorem wrapLoop_all_fits (cw : Char → ℚ) (maxW : ℚ) (h0 : ∀ c, 0 ≤ cw c) :
    ∀ (ws : List (List Char)) (cur : List Char) (lines : List (List Char)),
      cur ≠ [] → sw cw (joinSpace (cur :: ws)) ≤ maxW →
      wrapLoop cw maxW cur lines ws = lines ++ [joinSpace (cur :: ws)] := by
  intro ws
  induction ws with
  | nil =>
    intro cur lines hcur hle
    simp only [wrapLoop, joinSpace, if_neg hcur]
  | cons w rest ih =>
    intro cur lines hcur hle
    obtain ⟨r, hr⟩ := joinSpace_head_app w rest
    have hjoin : joinSpace (cur :: w :: rest) = (cur ++ [' '] ++ w) ++ r := by
      rw [joinSpace_cons_cons, hr]
      simp
    have htest : sw cw (cur ++ (if cur = [] then [] else [' ']) ++ w) ≤ maxW := by
      rw [if_neg hcur]
      calc sw cw (cur ++ [' '] ++ w) ≤ sw cw ((cur ++ [' '] ++ w) ++ r) :=
            sw_le_of_append cw h0 _ _
        _ = sw cw (joinSpace (cur :: w :: rest)) := by rw [hjoin]
        _ ≤ maxW := hle
    have hjoin2 : joinSpace ((cur ++ (if cur = [] then [] else [' ']) ++ w) :: rest) =
        joinSpace (cur :: w :: rest) := by
      rw [if_neg hcur]
      obtain ⟨r2, hr2⟩ := joinSpace_head_app (cur ++ [' '] ++ w) rest
      cases rest with
      | nil => simp [joinSpace, joinSpace_cons_cons]
      | cons x xs =>
        rw [joinSpace_cons_cons, joinSpace_cons_cons, joinSpace_cons_cons]
        simp
    simp only [wrapLoop, if_pos htest]
    rw [ih _ lines (by rw [if_neg hcur]; simp) (by rw [hjoin2]; exact hle), hjoin2]

theorem wrapLoop_nil_cur_step (cw : Char → ℚ) (maxW : ℚ) (w : List Char)
    (ws lines : List (List Char)) :
    wrapLoop cw maxW [] lines (w :: ws) =
      if sw cw w ≤ maxW then wrapLoop cw maxW w lines ws
      else wrapLoop cw maxW [] (lines ++ [w]) ws := by
  simp [wrapLoop]

/-- C2 (counterexample): for the two-character text consisting of a space and
the letter a, whose total measured width (2) is at most `maxWidth` (100),
`wrap_text` returns one line that differs from the input: the leading empty
word produced by `split(' ')` is silently dropped. -/
theorem wrap_text_total_fit_cex :
    sw unitCW [' ', 'a'] ≤ 100 ∧ wrap_text unitCW 100 [' ', 'a'] ≠ [[' ', 'a']] := by
  constructor
  · norm_num [sw, unitCW]
  · have : wrap_text unitCW 100 [' ', 'a'] = [['a']] := by
      norm_num [wrap_text, splitOnChar, wrapLoop, sw, unitCW]
    simp [this]

/-- C2 (amended): for every text that is non-empty and does not begin with a
space, if the total measured width of the text is at most `maxWidth` (under a
character-width table with non-negative widths) then `wrap_text` returns
exactly one line, equal to the input text. -/
theorem wrap_text_total_fit (cw : Char → ℚ) (maxW : ℚ) (c : Char) (cs : List Char)
    (hcw : ∀ ch, 0 ≤ cw ch) (hc : c ≠ ' ') (hw : sw cw (c :: cs) ≤ maxW) :
    wrap_text cw maxW (c :: cs) = [c :: cs] := by
  obtain ⟨w, ws, hsplit, hcons⟩ := splitOnChar_cons_of_ne ' ' c cs hc
  have hjoin : joinSpace ((c :: w) :: ws) = c :: cs := by
    have h2 := splitOnChar_joinSpace (c :: cs)
    rw [hcons] at h2
    exact h2
  obtain ⟨r, hr⟩ := joinSpace_head_app (c :: w) ws
  have htest : sw cw (c :: w) ≤ maxW := by
    calc sw cw (c :: w) ≤ sw cw ((c :: w) ++ r) := sw_le_of_append cw hcw _ _
      _ = sw cw (joinSpace ((c :: w) :: ws)) := by rw [hr]
      _ = sw cw (c :: cs) := by rw [hjoin]
      _ ≤ maxW := hw
  rw [wrap_text, hcons, wrapLoop_nil_cur_step, if_pos htest,
    wrapLoop_all_fits cw maxW hcw ws (c :: w) [] (by simp) (by rw [hjoin]; exact hw), hjoin]
  simp

/-- C2 witness: the text "ab" has width 2 ≤ 100 under the unit width table and
wraps to the single line "ab". -/
theorem wrap_text_total_fit_witness : wrap_text unitCW 100 ['a', 'b'] = [['a', 'b']] :=
  wrap_text_total_fit unitCW 100 'a' ['b'] (fun _ => by norm_num [unitCW])
    (by decide) (by norm_num [sw, unitCW])

theorem sw_replicate (cw : Char → ℚ) (n : Nat) (c : Char) :
    sw cw (List.replicate n c) = n * cw c := by
  simp [sw, List.map_replicate, List.sum_replicate, nsmul_eq_mul]

theorem repA_data (n : Nat) : (repA n).data = List.replicate n 'a' := rfl

theorem repA_length (n : Nat) : (repA n).length = n := by
  simp [repA, String.length]

/-- C3 (counterexample): for a 693-character body text under the unit width
table (measured width 693, wider than the 692-point content area), the clamped
start position chosen by `Center.render` is 49, strictly left of the
50-point left margin, so the claimed lower bound fails. -/
theorem centered_clamp_cex :
    centerRenderX unitMeasure defTheme (Element.bodyText (repA 693) none) < 50 := by
  have hw : centerTextWidth unitMeasure defTheme (Element.bodyText (repA 693) none)
      = some 693 := by
    simp only [centerTextWidth, repA_data, sw_replicate]
    norm_num [unitMeasure]
  rw [centerRenderX, hw]
  norm_num [min_def, max_def]

/-- C3 (amended): for every text-bearing child of `Center` with measured width
`w`, the chosen start position plus `w` never exceeds `pageWidth -
rightMargin` (742); the start position is at least the left margin (50)
whenever `w` is at most the content width 692, but may fall below the left
margin for wider text. -/
theorem centered_clamp (m : Measure) (theme : Theme) (e : Element) (w : ℚ)
    (hw : centerTextWidth m theme e = some w) :
    centerRenderX m theme e + w ≤ 792 - 50 ∧
    (w ≤ 692 → 50 ≤ centerRenderX m theme e) := by
  rw [centerRenderX, hw]
  constructor
  · have h := min_le_right (max 50 ((50 + 692 / 2) - w / 2)) (792 - 50 - w)
    linarith
  · intro hle
    exact le_min (le_max_left _ _) (by linarith)

/-- C3 witness: a 2-character body text under the unit width table stays
inside both margins. -/
theorem centered_clamp_witness :
    centerRenderX unitMeasure defTheme (Element.bodyText (repA 2) none) + 2 ≤ 792 - 50 ∧
    ((2 : ℚ) ≤ 692 → 50 ≤ centerRenderX unitMeasure defTheme (Element.bodyText (repA 2) none)) :=
  centered_clamp unitMeasure defTheme (Element.bodyText (repA 2) none) 2
    (by simp only [centerTextWidth, repA_data, sw_replicate]; norm_num [unitMeasure])

/-- C4 (counterexample): for the code string with two non-blank lines around
one interior blank line, the line count used for the height is not 2 — neither
in `Code.render` nor in the pagination estimator. -/
theorem code_interior_blank_cex :
    codeRenderLineCount "  x = 1\n\n  y = 2" ≠ 2 ∧
    codeEstLineCount "  x = 1\n\n  y = 2" ≠ 2 := by
  decide

/-- C4 (amended): for that code string the line count used to compute the
block's height equals 3 (the interior blank line is preserved and counted as
its own line), in both the real render and the pagination estimator. -/
theorem code_interior_blank_count :
    codeRenderLineCount "  x = 1\n\n  y = 2" = 3 ∧
    codeEstLineCount "  x = 1\n\n  y = 2" = 3 := by
  decide

/-- C5 (counterexample): when the image exists but fails to load, `Img.render`
returns 30 even though a caption was supplied — not the claimed 60. -/
theorem img_error_caption_cex :
    renderHeight unitMeasure errorEnv defTheme (Element.img "p.png" "cap") = 30 ∧
    renderHeight unitMeasure errorEnv defTheme (Element.img "p.png" "cap") ≠ 60 := by
  constructor
  · simp [renderHeight, errorEnv]
  · simp [renderHeight, errorEnv]

/-- C5 (amended): `Img.render` never raises on a missing or failing image:
with a non-existent path it returns 30 without caption and 60 with one, and on
a load error it returns 30 regardless of the caption. -/
theorem img_fallback_heights (m : Measure) (E : String → ImgOutcome) (theme : Theme)
    (path caption : String) :
    (E path = ImgOutcome.missing →
      renderHeight m E theme (Element.img path caption)
        = if caption = "" then 30 else 60) ∧
    (∀ msg, E path = ImgOutcome.loadError msg →
      renderHeight m E theme (Element.img path caption) = 30) := by
  constructor
  · intro h
    simp [renderHeight, h]
  · intro msg h
    simp [renderHeight, h]

/-- C5 witness: a missing image with a caption renders with height 60. -/
theorem img_fallback_heights_witness :
    renderHeight unitMeasure missingEnv defTheme (Element.img "p.png" "cap") = 60 := by
  have h := (img_fallback_heights unitMeasure missingEnv defTheme "p.png" "cap").1 rfl
  simpa using h

theorem estLines_of_nonneg (n : Nat) (fs : ℚ) (h : 0 ≤ fs) :
    estLines n fs = ⌊(n : ℚ) * fs / 692⌋ + 1 := by
  have h0 : (0 : ℤ) ≤ ⌊(n : ℚ) * fs / 692⌋ := Int.floor_nonneg.mpr (by positivity)
  simp only [estLines]
  omega

/-- C6 (counterexample): for a 173-character body text under the default theme
(`fontSize = 24`, `maxWidth = 692`, so `charCount * fontSize` is an exact
multiple of `maxWidth`), the estimator uses `173 * 24 // 692 + 1 = 7` lines,
while `ceil(173 * 24 / 692) = 6`, so the estimated height (185) differs from
the claimed ceiling formula (159). -/
theorem estimate_ceil_formula_cex :
    estimate defTheme (Element.bodyText (repA 173) none)
      ≠ specCeilTextHeight (repA 173).length defTheme.font_size 2 3 := by
  have hfloor : ⌊((173 : ℚ)) * 24 / 692⌋ = 6 := by
    rw [Int.floor_eq_iff]
    norm_num
  have hceil : ⌈((173 : ℚ)) * 24 / 692⌉ = 6 := by
    rw [Int.ceil_eq_iff]
    norm_num
  have h1 : estimate defTheme (Element.bodyText (repA 173) none) = 185 := by
    simp only [estimate, estTextHeight, estLines, repA_length, defTheme, hfloor]
    norm_num
  have h2 : specCeilTextHeight (repA 173).length defTheme.font_size 2 3 = 159 := by
    simp only [specCeilTextHeight, repA_length, defTheme, hceil]
    norm_num
  rw [h1, h2]
  norm_num

/-- C6 (amended): for non-negative theme font sizes, the pagination estimator
computes the line count of every text-bearing variant as
`floor(charCount * fontSize / maxWidth) + 1` (one more than the floor of the
character-density quotient; this equals the ceiling only when the division is
inexact) with the variant's font size and `maxWidth = 692`, and applies the
same per-category line-height formula as the renderer. -/
theorem estimate_text_floor_formula (theme : Theme) (h1 : 0 ≤ theme.font_size)
    (h2 : 0 ≤ theme.header_font_size) (t : String) (c : Option String) :
    estimate theme (Element.head1 t c)
      = ((⌊(t.length : ℚ) * theme.header_font_size / 692⌋ + 1 : ℤ) : ℚ)
          * (theme.header_font_size + 5) + 5 ∧
    estimate theme (Element.head2 t c)
      = ((⌊(t.length : ℚ) * (theme.header_font_size * (3 / 4)) / 692⌋ + 1 : ℤ) : ℚ)
          * (theme.header_font_size * (3 / 4) + 4) + 4 ∧
    estimate theme (Element.head3 t c)
      = ((⌊(t.length : ℚ) * (theme.header_font_size * (3 / 5)) / 692⌋ + 1 : ℤ) : ℚ)
          * (theme.header_font_size * (3 / 5) + 3) + 3 ∧
    estimate theme (Element.bodyText t c)
      = ((⌊(t.length : ℚ) * theme.font_size / 692⌋ + 1 : ℤ) : ℚ)
          * (theme.font_size + 2) + 3 ∧
    estimate theme (Element.bold t c)
      = ((⌊(t.length : ℚ) * theme.font_size / 692⌋ + 1 : ℤ) : ℚ)
          * (theme.font_size + 2) + 3 := by
  refine ⟨?_, ?_, ?_, ?_, ?_⟩ <;>
    simp [estimate, estTextHeight, estLines_of_nonneg _ _ h1,
      estLines_of_nonneg _ _ h2,
      estLines_of_nonneg _ (theme.header_font_size * (3 / 4)) (by positivity),
      estLines_of_nonneg _ (theme.header_font_size * (3 / 5)) (by positivity)]

/-- C6 witness: the formula evaluated for a 2-character body text under the
default theme. -/
theorem estimate_text_floor_formula_witness :
    estimate defTheme (Element.bodyText "ab" none)
      = ((⌊(("ab".length : ℚ)) * defTheme.font_size / 692⌋ + 1 : ℤ) : ℚ)
          * (defTheme.font_size + 2) + 3 :=
  (estimate_text_floor_formula defTheme (by norm_num [defTheme]) (by norm_num [defTheme])
    "ab" none).2.2.2.1

theorem renderHeights_eq_map (m : Measure) (E : String → ImgOutcome) (theme : Theme)
    (l : List Element) :
    renderHeights m E theme l = l.map (renderHeight m E theme) := by
  induction l with
  | nil => simp [renderHeights]
  | cons e t ih => simp [renderHeights, ih]

theorem estimates_eq_map (theme : Theme) (l : List Element) :
    estimates theme l = l.map (estimate theme) := by
  induction l with
  | nil => simp [estimates]
  | cons e t ih => simp [estimates, ih]

theorem gridRunAux_eq_foldl (n : Nat) :
    ∀ (hs : List ℚ) (i : Nat) (acc : ℚ),
      gridRunAux n i acc hs = (hs.take (n - i)).foldl max acc := by
  intro hs
  induction hs with
  | nil => intro i acc; simp [gridRunAux]
  | cons h t ih =>
    intro i acc
    by_cases hni : n ≤ i
    · have : n - i = 0 := by omega
      simp [gridRunAux, hni, this]
    · have hsub : n - i = (n - (i + 1)) + 1 := by omega
      rw [hsub]
      simp only [gridRunAux, if_neg hni, List.take_succ_cons, List.foldl_cons]
      exact ih (i + 1) (max acc h)

/-- C7: `GridLayout.render` draws only the first `columns` children — children
at and beyond that index never influence the result — and returns the maximum
of the rendered children's heights (accumulated from 0), not their sum; the
pagination estimator likewise takes the maximum over the first `columns`
children. -/
theorem grid_first_columns_max (m : Measure) (E : String → ImgOutcome) (theme : Theme)
    (els : List Element) (n : Nat) :
    renderHeight m E theme (Element.grid els n)
      = ((els.take n).map (renderHeight m E theme)).foldl max 0 ∧
    renderHeight m E theme (Element.grid els n)
      = renderHeight m E theme (Element.grid (els.take n) n) ∧
    estimate theme (Element.grid els n)
      = ((els.take n).map (estimate theme)).foldl max 0 ∧
    estimate theme (Element.grid els n) = estimate theme (Element.grid (els.take n) n) := by
  have hr : ∀ l : List Element, renderHeight m E theme (Element.grid l n)
      = ((l.take n).map (renderHeight m E theme)).foldl max 0 := by
    intro l
    rw [renderHeight, renderHeights_eq_map, gridRunAux_eq_foldl]
    simp [List.map_take]
  have he : ∀ l : List Element, estimate theme (Element.grid l n)
      = ((l.take n).map (estimate theme)).foldl max 0 := by
    intro l
    rw [estimate, estimates_eq_map]
    simp [List.map_take]
  refine ⟨hr els, ?_, he els, ?_⟩
  · rw [hr els, hr (els.take n)]
    simp [List.take_take]
  · rw [he els, he (els.take n)]
    simp [List.take_take]

/-- C8: `CombinedElement.render` returns exactly the sum of its children's
individually rendered heights, and renders the children in list order stacked
top to bottom: the i-th child is drawn at the start `y` minus the sum of the
heights of the preceding children. -/
theorem combined_sum_stacking (m : Measure) (E : String → ImgOutcome) (theme : Theme)
    (y : ℚ) (els : List Element) :
    renderHeight m E theme (Element.combined els)
      = (els.map (renderHeight m E theme)).sum ∧
    ∀ i : Nat, (combinedPlacements m E theme y els)[i]?
      = (els[i]?).map (fun e =>
          (e, y - ((els.take i).map (renderHeight m E theme)).sum)) := by
  constructor
  · rw [renderHeight, renderHeights_eq_map]
  · intro i
    induction els generalizing y i with
    | nil => simp [combinedPlacements]
    | cons e l ih =>
      cases i with
      | zero => simp [combinedPlacements]
      | succ j =>
        simp only [combinedPlacements, List.getElem?_cons_succ, List.take_succ_cons,
          List.map_cons, List.sum_cons, ih (y - renderHeight m E theme e) j]
        simp [sub_sub]

theorem pagLoop_append_slides (est : Element → ℚ) :
    ∀ (rest : List Element) (S slides : List (List Element)) (cur : List Element) (y : ℚ),
      pagLoop est (S ++ slides) cur y rest = S ++ pagLoop est slides cur y rest := by
  intro rest
  induction rest with
  | nil =>
    intro S slides cur y
    by_cases h : cur.isEmpty <;> simp [pagLoop, h]
  | cons e t ih =>
    intro S slides cur y
    simp only [pagLoop]
    by_cases hcond : (y - est e - 10 < 50 ∧ cur.isEmpty = false)
    · rw [if_pos hcond, if_pos hcond, List.append_assoc]
      exact ih S (slides ++ [cur]) [e] _
    · rw [if_neg hcond, if_neg hcond]
      exact ih S slides (cur ++ [e]) _

theorem pagLoop_eq_append (est : Element → ℚ) (rest : List Element)
    (slides : List (List Element)) (cur : List Element) (y : ℚ) :
    pagLoop est slides cur y rest = slides ++ pagLoop est [] cur y rest := by
  have h := pagLoop_append_slides est rest slides [] cur y
  simpa using h

theorem pagLoop_join (est : Element → ℚ) :
    ∀ (rest cur : List Element) (y : ℚ),
      (pagLoop est [] cur y rest).flatten = cur ++ rest := by
  intro rest
  induction rest with
  | nil =>
    intro cur y
    by_cases h : cur.isEmpty
    · have hc : cur = [] := by simpa [List.isEmpty_iff] using h
      simp [pagLoop, h, hc]
    · simp [pagLoop, h]
  | cons e t ih =>
    intro cur y
    simp only [pagLoop]
    by_cases hcond : (y - est e - 10 < 50 ∧ cur.isEmpty = false)
    · rw [if_pos hcond, pagLoop_eq_append]
      simp [ih]
    · rw [if_neg hcond]
      simp [ih]

/-- C1: for every theme and every non-empty element sequence,
`render_with_overflow_detection` produces at least one physical slide, and
concatenating the produced slides' element sequences, in order, yields exactly
the original sequence. -/
theorem pagination_preserves_sequence (theme : Theme) (els : List Element)
    (hne : els ≠ []) :
    1 ≤ (render_with_overflow_detection theme els).length ∧
    (render_with_overflow_detection theme els).flatten = els := by
  unfold render_with_overflow_detection
  by_cases h : (pagLoop (estimate theme) [] [] (891 / 2 - 50) els).isEmpty
  · simp [h]
  · have hjoin := pagLoop_join (estimate theme) els [] (891 / 2 - 50)
    have hne2 : pagLoop (estimate theme) [] [] (891 / 2 - 50) els ≠ [] := by
      simpa [List.isEmpty_iff] using h
    constructor
    · simp only [h, if_neg, Bool.false_eq_true, if_false]
      exact Nat.one_le_iff_ne_zero.mpr (by simpa using hne2)
    · simp only [h, Bool.false_eq_true, if_false]
      simpa using hjoin

/-- C1 witness: one short body-text element yields one physical slide carrying
exactly that element. -/
theorem pagination_preserves_sequence_witness :
    1 ≤ (render_with_overflow_detection defTheme [Element.bodyText (repA 2) none]).length ∧
    (render_with_overflow_detection defTheme [Element.bodyText (repA 2) none]).flatten
      = [Element.bodyText (repA 2) none] :=
  pagination_preserves_sequence defTheme [Element.bodyText (repA 2) none] (by simp)

theorem estTextHeight_nonneg (n : Nat) (fs gap trail : ℚ) (hfs : 0 ≤ fs)
    (hgap : 0 ≤ gap) (ht : 0 ≤ trail) : 0 ≤ estTextHeight n fs gap trail := by
  have h1 : (1 : ℤ) ≤ estLines n fs := le_max_left _ _
  have h1q : (1 : ℚ) ≤ ((estLines n fs : ℤ) : ℚ) := by exact_mod_cast h1
  have hmul : 0 ≤ ((estLines n fs : ℤ) : ℚ) * (fs + gap) :=
    mul_nonneg (by linarith) (by linarith)
  simp only [estTextHeight]
  linarith

theorem le_foldl_max (l : List ℚ) : ∀ a : ℚ, a ≤ l.foldl max a := by
  induction l with
  | nil => intro a; simp
  | cons x t ih =>
    intro a
    simp only [List.foldl_cons]
    exact le_trans (le_max_left a x) (ih (max a x))

theorem estimate_nonneg (theme : Theme) (h1 : 0 ≤ theme.font_size)
    (h2 : 0 ≤ theme.header_font_size) : (e : Element) → 0 ≤ estimate theme e
  | .head1 t c => by
    rw [estimate]
    exact estTextHeight_nonneg _ _ _ _ h2 (by norm_num) (by norm_num)
  | .head2 t c => by
    rw [estimate]
    exact estTextHeight_nonneg _ _ _ _ (by positivity) (by norm_num) (by norm_num)
  | .head3 t c => by
    rw [estimate]
    exact estTextHeight_nonneg _ _ _ _ (by positivity) (by norm_num) (by norm_num)
  | .bodyText t c => by
    rw [estimate]
    exact estTextHeight_nonneg _ _ _ _ h1 (by norm_num) (by norm_num)
  | .bold t c => by
    rw [estimate]
    exact estTextHeight_nonneg _ _ _ _ h1 (by norm_num) (by norm_num)
  | .code c lang bg => by
    rw [estimate]
    have hn : (0 : ℚ) ≤ (codeEstLineCount c : ℚ) := by positivity
    have hl : (0 : ℚ) ≤ theme.font_size * (4 / 5) + 2 := by positivity
    have := mul_nonneg hn hl
    linarith
  | .img p cap => by rw [estimate]; norm_num
  | .backgroundImage p => by rw [estimate]
  | .center e => by
    rw [estimate]
    exact estimate_nonneg theme h1 h2 e
  | .bottom e => by
    rw [estimate]
    exact estimate_nonneg theme h1 h2 e
  | .titleSlide e => by
    rw [estimate]
    exact estimate_nonneg theme h1 h2 e
  | .grid els n => by
    rw [estimate]
    exact le_foldl_max _ 0
  | .combined els => by
    rw [estimate]
    apply List.sum_nonneg
    intro x hx
    rw [estimates_eq_map] at hx
    obtain ⟨e, he, rfl⟩ := List.mem_map.mp hx
    exact estimate_nonneg theme h1 h2 e
termination_by e => sizeOf e
decreasing_by
  · simp only [Element.center.sizeOf_spec]; omega
  · simp only [Element.bottom.sizeOf_spec]; omega
  · simp only [Element.titleSlide.sizeOf_spec]; omega
  · have := List.sizeOf_lt_of_mem he
    simp only [Element.combined.sizeOf_spec]
    omega

theorem pagLoop_spill (est : Element → ℚ) (h0 : ∀ x, 0 ≤ est x) (e : Element) :
    ∀ (post : List Element) (slides : List (List Element)) (y : ℚ), y < 40 →
      ∃ T, pagLoop est slides [e] y post = slides ++ [e] :: T := by
  intro post slides y hy
  cases post with
  | nil => exact ⟨[], by simp [pagLoop]⟩
  | cons f rest =>
    have hcond : y - est f - 10 < 50 ∧ ([e] : List Element).isEmpty = false := by
      refine ⟨?_, by simp⟩
      have := h0 f
      linarith
    refine ⟨pagLoop est [] [f] (891 / 2 - 50 - est f - 10) rest, ?_⟩
    simp only [pagLoop, if_pos hcond]
    rw [pagLoop_eq_append]
    simp

theorem pagLoop_oversized (est : Element → ℚ) (h0 : ∀ x, 0 ≤ est x) (e : Element)
    (hbig : 891 / 2 < est e) :
    ∀ (post : List Element) (slides : List (List Element)) (cur : List Element) (y : ℚ),
      y ≤ 891 / 2 - 50 →
      ∃ T, pagLoop est slides cur y (e :: post)
        = (slides ++ if cur.isEmpty then [] else [cur]) ++ [e] :: T := by
  intro post slides cur y hy
  by_cases hc : cur.isEmpty
  · have hcur : cur = [] := by simpa [List.isEmpty_iff] using hc
    subst hcur
    have hcond : ¬(y - est e - 10 < 50 ∧ ([] : List Element).isEmpty = false) := by simp
    obtain ⟨T, hT⟩ := pagLoop_spill est h0 e post slides (y - (est e + 10)) (by linarith)
    refine ⟨T, ?_⟩
    have hstep : pagLoop est slides [] y (e :: post)
        = pagLoop est slides [e] (y - (est e + 10)) post := by
      simp only [pagLoop, if_neg hcond, List.nil_append]
    rw [hstep, hT]
    simp
  · have hcond : y - est e - 10 < 50 ∧ cur.isEmpty = false := by
      refine ⟨by linarith, by simpa using hc⟩
    obtain ⟨T, hT⟩ :=
      pagLoop_spill est h0 e post (slides ++ [cur]) (891 / 2 - 50 - est e - 10) (by linarith)
    refine ⟨T, ?_⟩
    have hstep : pagLoop est slides cur y (e :: post)
        = pagLoop est (slides ++ [cur]) [e] (891 / 2 - 50 - est e - 10) post := by
      simp only [pagLoop, if_pos hcond]
    rw [hstep, hT]
    simp [hc]

theorem pagLoop_through (est : Element → ℚ) (h0 : ∀ x, 0 ≤ est x) :
    ∀ (A rest : List Element) (slides : List (List Element)) (cur : List Element) (y : ℚ),
      y ≤ 891 / 2 - 50 →
      ∃ slides' cur' y',
        pagLoop est slides cur y (A ++ rest) = pagLoop est slides' cur' y' rest ∧
        slides'.flatten ++ cur' = slides.flatten ++ cur ++ A ∧ y' ≤ 891 / 2 - 50 := by
  intro A
  induction A with
  | nil =>
    intro rest slides cur y hy
    exact ⟨slides, cur, y, rfl, by simp, hy⟩
  | cons a A' ih =>
    intro rest slides cur y hy
    rw [List.cons_append]
    simp only [pagLoop]
    by_cases hcond : (y - est a - 10 < 50 ∧ cur.isEmpty = false)
    · rw [if_pos hcond]
      obtain ⟨s', c', y', heq, hjoin, hy'⟩ :=
        ih rest (slides ++ [cur]) [a] (891 / 2 - 50 - est a - 10)
          (by have := h0 a; linarith)
      refine ⟨s', c', y', heq, ?_, hy'⟩
      rw [hjoin]
      simp
    · rw [if_neg hcond]
      obtain ⟨s', c', y', heq, hjoin, hy'⟩ :=
        ih rest slides (cur ++ [a]) (y - (est a + 10)) (by have := h0 a; linarith)
      refine ⟨s', c', y', heq, ?_, hy'⟩
      rw [hjoin]
      simp

/-- C9: in every element sequence, an element whose estimated height exceeds
the full page height (445.5) is placed alone on its own physical slide by
`render_with_overflow_detection` (it is never split, and nothing shares its
slide), regardless of the elements that precede or follow it; theme font sizes
are assumed non-negative so that all estimates are non-negative. -/
theorem oversized_element_isolated (theme : Theme) (h1 : 0 ≤ theme.font_size)
    (h2 : 0 ≤ theme.header_font_size) (A B : List Element) (e : Element)
    (hbig : 891 / 2 < estimate theme e) :
    ∃ S T, render_with_overflow_detection theme (A ++ e :: B) = S ++ [e] :: T ∧
      S.flatten = A ∧ T.flatten = B := by
  have h0 : ∀ x, 0 ≤ estimate theme x := estimate_nonneg theme h1 h2
  obtain ⟨s', c', y', heq, hjoin, hy'⟩ :=
    pagLoop_through (estimate theme) h0 A (e :: B) [] [] (891 / 2 - 50) (le_refl _)
  obtain ⟨T, hT⟩ := pagLoop_oversized (estimate theme) h0 e hbig B s' c' y' hy'
  simp only [List.flatten_nil, List.nil_append] at hjoin
  refine ⟨s' ++ if c'.isEmpty then [] else [c'], T, ?_, ?_, ?_⟩
  · unfold render_with_overflow_detection
    rw [heq, hT]
    simp
  · by_cases hc : c'.isEmpty
    · have hcur : c' = [] := by simpa [List.isEmpty_iff] using hc
      rw [hcur] at hjoin
      simp only [List.append_nil] at hjoin
      simp [hc, hjoin]
    · simp only [hc, Bool.false_eq_true, if_false]
      rw [List.flatten_append]
      simp [hjoin]
  · have hall : (pagLoop (estimate theme) [] [] (891 / 2 - 50) (A ++ e :: B)).flatten
        = A ++ e :: B := by
      simpa using pagLoop_join (estimate theme) (A ++ e :: B) [] (891 / 2 - 50)
    rw [heq, hT] at hall
    have hSjoin : (s' ++ if c'.isEmpty then [] else [c']).flatten = A := by
      by_cases hc : c'.isEmpty
      · have hcur : c' = [] := by simpa [List.isEmpty_iff] using hc
        rw [hcur] at hjoin
        simp only [List.append_nil] at hjoin
        simp [hc, hjoin]
      · simp only [hc, Bool.false_eq_true, if_false]
        rw [List.flatten_append]
        simp [hjoin]
    rw [List.flatten_append, hSjoin] at hall
    have hcons : e :: T.flatten = e :: B := by
      have := List.append_cancel_left hall
      simpa using this
    exact (List.cons.injEq _ _ _ _).mp hcons |>.2

/-- C9 witness: a 500-character body text estimates to height 471 > 445.5 and
is isolated on its own slide. -/
theorem oversized_element_isolated_witness :
    ∃ S T, render_with_overflow_detection defTheme
        ([] ++ Element.bodyText (repA 500) none :: []) =
        S ++ [Element.bodyText (repA 500) none] :: T ∧
      S.flatten = [] ∧ T.flatten = [] :=
  oversized_element_isolated defTheme (by norm_num [defTheme]) (by norm_num [defTheme])
    [] [] (Element.bodyText (repA 500) none) (by
      have hfloor : ⌊(500 : ℚ) * 24 / 692⌋ = 17 := by
        rw [Int.floor_eq_iff]
        norm_num
      simp only [estimate, estTextHeight, estLines, repA_length, defTheme, hfloor]
      norm_num)

theorem modifyLast_cons_of_ne_nil (f : α → α) (a : α) (l : List α) (h : l ≠ []) :
    modifyLast f (a :: l) = a :: modifyLast f l := by
  cases l with
  | nil => exact absurd rfl h
  | cons b t => rfl

theorem modifyLast_append_singleton (f : α → α) :
    ∀ (xs : List α) (a : α), modifyLast f (xs ++ [a]) = xs ++ [f a] := by
  intro xs
  induction xs with
  | nil => intro a; rfl
  | cons b t ih =>
    intro a
    rw [List.cons_append, modifyLast_cons_of_ne_nil f b (t ++ [a]) (by simp), ih]
    rfl

theorem splitOnChar_snoc (sep : Char) :
    ∀ (l : List Char) (c : Char),
      splitOnChar sep (l ++ [c]) =
        if c = sep then splitOnChar sep l ++ [[]]
        else modifyLast (fun x => x ++ [c]) (splitOnChar sep l) := by
  intro l
  induction l with
  | nil =>
    intro c
    by_cases hc : c = sep <;> simp [splitOnChar, hc, modifyLast]
  | cons a l ih =>
    intro c
    by_cases ha : a = sep
    · subst ha
      rw [List.cons_append]
      have hl : splitOnChar a (a :: (l ++ [c])) = [] :: splitOnChar a (l ++ [c]) := by
        simp [splitOnChar]
      have hr : splitOnChar a (a :: l) = [] :: splitOnChar a l := by
        simp [splitOnChar]
      rw [hl, ih, hr]
      by_cases hc : c = a
      · simp [hc]
      · simp only [hc, if_false]
        rw [modifyLast_cons_of_ne_nil _ _ _ (splitOnChar_ne_nil a l)]
    · obtain ⟨w, ws, hw, hcons⟩ := splitOnChar_cons_of_ne sep a l ha
      by_cases hc : c = sep
      · obtain ⟨w2, ws2, hw2, hcons2⟩ := splitOnChar_cons_of_ne sep a (l ++ [c]) ha
        rw [List.cons_append, hcons2, if_pos hc, hcons]
        have hih := ih c
        rw [if_pos hc, hw, hw2, List.cons_append] at hih
        injection hih with h1 h2
        rw [h1, h2]
        simp
      · obtain ⟨w2, ws2, hw2, hcons2⟩ := splitOnChar_cons_of_ne sep a (l ++ [c]) ha
        rw [List.cons_append, hcons2, if_neg hc, hcons]
        have hih := ih c
        rw [if_neg hc, hw] at hih
        rw [hw2] at hih
        cases ws with
        | nil =>
          simp only [modifyLast] at hih
          injection hih with h1 h2
          rw [h1, h2]
          simp [modifyLast]
        | cons z zs =>
          rw [modifyLast_cons_of_ne_nil _ _ _ (by simp)] at hih
          injection hih with h1 h2
          rw [h1, h2]
          exact (modifyLast_cons_of_ne_nil (fun x => x ++ [c]) (a :: w) (z :: zs) (by simp)).symm

theorem splitOnChar_reverse (sep : Char) :
    ∀ l : List Char,
      splitOnChar sep l.reverse = ((splitOnChar sep l).map List.reverse).reverse := by
  intro l
  induction l with
  | nil => simp [splitOnChar]
  | cons c l ih =>
    rw [List.reverse_cons, splitOnChar_snoc]
    by_cases hc : c = sep
    · subst hc
      rw [if_pos rfl, ih]
      have : splitOnChar c (c :: l) = [] :: splitOnChar c l := by simp [splitOnChar]
      rw [this]
      simp
    · rw [if_neg hc]
      obtain ⟨w, ws, hw, hcons⟩ := splitOnChar_cons_of_ne sep c l hc
      rw [ih, hcons, hw]
      simp only [List.map_cons, List.reverse_cons]
      rw [modifyLast_append_singleton]

theorem dropWhile_append_right (p : α → Bool) :
    ∀ (Y Z : List α),
      (Y ++ Z).dropWhile p =
        if (Y.dropWhile p).isEmpty then Z.dropWhile p else Y.dropWhile p ++ Z := by
  intro Y
  induction Y with
  | nil => intro Z; simp
  | cons a Y' ih =>
    intro Z
    by_cases ha : p a
    · simp only [List.cons_append, List.dropWhile_cons, ha, if_true]
      exact ih Z
    · simp only [List.cons_append, List.dropWhile_cons, ha, Bool.false_eq_true, if_false]
      simp

theorem dropRightWhile_cons_of_neg (p : α → Bool) (a : α) (l : List α) (h : p a = false) :
    dropRightWhile p (a :: l) = a :: dropRightWhile p l := by
  rw [dropRightWhile, List.reverse_cons, dropWhile_append_right]
  by_cases he : (l.reverse.dropWhile p).isEmpty
  · have hnil : l.reverse.dropWhile p = [] := by simpa [List.isEmpty_iff] using he
    rw [if_pos he]
    simp [List.dropWhile_cons, h, dropRightWhile, hnil]
  · rw [if_neg he]
    simp [dropRightWhile]

theorem blankLine_reverse (l : List Char) : blankLine l.reverse = blankLine l := by
  simp [blankLine, List.all_eq_true]

theorem dropWhile_map_eq (p : β → Bool) (f : α → β) :
    ∀ l : List α, (l.map f).dropWhile p = (l.dropWhile (fun a => p (f a))).map f := by
  intro l
  induction l with
  | nil => simp
  | cons a t ih =>
    by_cases ha : p (f a) <;> simp [List.dropWhile_cons, ha, ih]

theorem exists_nonws_dropWhile (l : List Char) (h : ∃ c ∈ l, c.isWhitespace = false) :
    ∃ c ∈ l.dropWhile Char.isWhitespace, c.isWhitespace = false := by
  induction l with
  | nil => simpa using h
  | cons a t ih =>
    by_cases ha : a.isWhitespace
    · rw [List.dropWhile_cons, if_pos ha]
      apply ih
      obtain ⟨c, hc, hcw⟩ := h
      rcases List.mem_cons.mp hc with hca | hct
      · rw [hca] at hcw
        rw [hcw] at ha
        exact absurd ha (by simp)
      · exact ⟨c, hct, hcw⟩
    · rw [List.dropWhile_cons, if_neg ha]
      exact ⟨a, by simp, by simpa using ha⟩

theorem splitDropWS :
    ∀ l : List Char, (∃ c ∈ l, c.isWhitespace = false) →
      ∃ u v t, splitOnChar '\n' (l.dropWhile Char.isWhitespace) = u :: t ∧
        (splitOnChar '\n' l).dropWhile blankLine = v :: t ∧
        blankLine u = false ∧ blankLine v = false := by
  intro l
  induction l with
  | nil => intro h; simpa using h
  | cons c cs ih =>
    intro h
    by_cases hw : c.isWhitespace
    · have hcs : ∃ x ∈ cs, x.isWhitespace = false := by
        obtain ⟨x, hx, hxw⟩ := h
        rcases List.mem_cons.mp hx with hxa | hxt
        · rw [hxa] at hxw
          rw [hxw] at hw
          exact absurd hw (by simp)
        · exact ⟨x, hxt, hxw⟩
      obtain ⟨u, v, t, hu, hv, hbu, hbv⟩ := ih hcs
      by_cases hnl : c = '\n'
      · subst hnl
        refine ⟨u, v, t, ?_, ?_, hbu, hbv⟩
        · rw [List.dropWhile_cons, if_pos hw]
          exact hu
        · have hsp : splitOnChar '\n' ('\n' :: cs) = [] :: splitOnChar '\n' cs := by
            simp [splitOnChar]
          rw [hsp, List.dropWhile_cons]
          simp only [blankLine, List.all_nil, if_true]
          exact hv
      · obtain ⟨w, ws, hwsp, hcons⟩ := splitOnChar_cons_of_ne '\n' c cs hnl
        rw [hwsp] at hv
        have hblank_cw : blankLine (c :: w) = blankLine w := by
          simp [blankLine, List.all_cons, hw]
        by_cases hbw : blankLine w
        · have hdv : (w :: ws).dropWhile blankLine = ws.dropWhile blankLine := by
            rw [List.dropWhile_cons, if_pos hbw]
          rw [hdv] at hv
          refine ⟨u, v, t, ?_, ?_, hbu, hbv⟩
          · rw [List.dropWhile_cons, if_pos hw]
            exact hu
          · rw [hcons, List.dropWhile_cons]
            rw [hblank_cw, if_pos hbw]
            exact hv
        · have hdv : (w :: ws).dropWhile blankLine = w :: ws := by
            rw [List.dropWhile_cons, if_neg (by simpa using hbw)]
          rw [hdv] at hv
          injection hv.symm with h1 h2
          refine ⟨u, c :: w, ws, ?_, ?_, hbu, by simpa [hblank_cw] using hbw⟩
          · rw [List.dropWhile_cons, if_pos hw]
            rw [h2] at hu
            exact hu
          · rw [hcons, List.dropWhile_cons, hblank_cw, if_neg (by simpa using hbw)]
    · have hnl : c ≠ '\n' := by
        intro hcontra
        rw [hcontra] at hw
        exact hw (by decide)
      obtain ⟨w, ws, hwsp, hcons⟩ := splitOnChar_cons_of_ne '\n' c cs hnl
      have hblank : blankLine (c :: w) = false := by
        simp [blankLine, List.all_cons, hw]
      refine ⟨c :: w, c :: w, ws, ?_, ?_, hblank, hblank⟩
      · rw [List.dropWhile_cons, if_neg (by simpa using hw)]
        exact hcons
      · rw [hcons, List.dropWhile_cons, hblank]
        simp

theorem codeCounts_eq (s : String) (h : ∃ c ∈ s.data, c.isWhitespace = false) :
    codeRenderLineCount s = codeEstLineCount s := by
  obtain ⟨u, v, tail, hu, hv, hbu, hbv⟩ := splitDropWS s.data h
  have hrender : codeRenderLineCount s = (dropRightWhile blankLine tail).length + 1 := by
    rw [codeRenderLineCount, trimCodeLines, hv, dropRightWhile_cons_of_neg _ _ _ hbv]
    simp
  have h1 : ∃ c ∈ s.data.dropWhile Char.isWhitespace, c.isWhitespace = false :=
    exists_nonws_dropWhile s.data h
  have h2 : ∃ c ∈ (s.data.dropWhile Char.isWhitespace).reverse, c.isWhitespace = false := by
    obtain ⟨c, hc, hcw⟩ := h1
    exact ⟨c, by simpa using hc, hcw⟩
  obtain ⟨u2, v2, tail2, hu2, hv2, hbu2, hbv2⟩ :=
    splitDropWS (s.data.dropWhile Char.isWhitespace).reverse h2
  have hest1 : codeEstLineCount s = tail2.length + 1 := by
    rw [codeEstLineCount, pyStrip, dropRightWhile, splitOnChar_reverse,
      List.length_reverse, List.length_map, hu2]
    simp
  have hest2 : tail2.length + 1 = (dropRightWhile blankLine tail).length + 1 := by
    have e1 : ((splitOnChar '\n'
        (s.data.dropWhile Char.isWhitespace).reverse).dropWhile blankLine).length
        = tail2.length + 1 := by
      rw [hv2]
      simp
    rw [splitOnChar_reverse] at e1
    have e2 : ((splitOnChar '\n' (s.data.dropWhile Char.isWhitespace)).map
        List.reverse).reverse
        = ((splitOnChar '\n' (s.data.dropWhile Char.isWhitespace)).reverse).map
            List.reverse := by
      simp
    rw [e2, dropWhile_map_eq, List.length_map] at e1
    have e3 : ((splitOnChar '\n' (s.data.dropWhile Char.isWhitespace)).reverse.dropWhile
          (fun a => blankLine a.reverse))
        = ((splitOnChar '\n' (s.data.dropWhile Char.isWhitespace)).reverse.dropWhile
            blankLine) := by
      congr 1
      funext a
      exact blankLine_reverse a
    rw [e3] at e1
    have e4 : (((splitOnChar '\n' (s.data.dropWhile Char.isWhitespace)).reverse).dropWhile
          blankLine).length
        = (dropRightWhile blankLine
            (splitOnChar '\n' (s.data.dropWhile Char.isWhitespace))).length := by
      rw [dropRightWhile, List.length_reverse]
    rw [e4, hu, dropRightWhile_cons_of_neg _ _ _ hbu] at e1
    simp at e1
    omega
  rw [hrender, hest1, hest2]

/-- C10: for every Code element whose code contains at least one
non-whitespace character, the pagination estimator's height equals the value
returned by `Code.render`, namely
`trimmedLineCount * (0.8 * fontSize + 2) + 2 * 10 + 10`; the render height is
computed from the trimmed line count alone, before any line wrapping, so
wrapped continuation segments contribute nothing to the returned height. -/
theorem code_estimate_matches_render (m : Measure) (E : String → ImgOutcome)
    (theme : Theme) (s : String) (lang : Option String) (bg : String)
    (h : ∃ c ∈ s.data, c.isWhitespace = false) :
    estimate theme (Element.code s lang bg)
      = renderHeight m E theme (Element.code s lang bg) ∧
    renderHeight m E theme (Element.code s lang bg)
      = (codeRenderLineCount s : ℚ) * (theme.font_size * (4 / 5) + 2) + 2 * 10 + 10 := by
  have hcount : codeRenderLineCount s = codeEstLineCount s := codeCounts_eq s h
  constructor
  · simp only [estimate, renderHeight, hcount]
  · simp only [renderHeight]

/-- C10 witness: the single-line code string "x" gets the same height (256/5)
from the estimator and the renderer. -/
theorem code_estimate_matches_render_witness :
    estimate defTheme (Element.code "x" none "#F5F5F5")
      = renderHeight unitMeasure missingEnv defTheme (Element.code "x" none "#F5F5F5") ∧
    renderHeight unitMeasure missingEnv defTheme (Element.code "x" none "#F5F5F5")
      = (codeRenderLineCount "x" : ℚ) * (defTheme.font_size * (4 / 5) + 2) + 2 * 10 + 10 :=
  code_estimate_matches_render unitMeasure missingEnv defTheme "x" none "#F5F5F5" (by decide)
